import Mathlib

/-!
Verification of the `accept-language` negotiator (`src/Source/AcceptLanguage.ts`).

The development shallowly embeds the TypeScript source:

* JavaScript numbers produced by `parseFloat` are modelled by `JsFloat`
  (`NaN`, the two infinities, and exact rationals for finite decimal
  literals);
* the external collaborators declared out of scope by the design document
  (the `bcp47` parser and the `stable` sort package) are modelled from
  their documented contracts;
* the mutable `AcceptLanguage` instance becomes an explicit state record,
  with `languages` returning the error raised (if any) together with the
  state left behind by the call, mirroring the mutation order of the
  source;
* `parse` (the private negotiation routine behind `get`) is a pure
  function of the state, exactly as the source method only reads `this`.
-/

set_option maxRecDepth 20000

attribute [local semireducible] Rat.sub Rat.add Rat.mul Rat.inv

namespace AcceptLanguageSpec

/-! ## JavaScript numbers for quality values -/

/-- The values `parseFloat` can produce: `NaN`, `±Infinity`, or a finite
number.  A finite binary64 double denotes an exactly representable
rational, so finite values are carried as the rational a double denotes
(`parseFloat` rounds every literal onto that set, see `roundToDouble`). -/
inductive JsFloat where
  | nan : JsFloat
  | posInf : JsFloat
  | negInf : JsFloat
  | val (q : ℚ) : JsFloat
deriving DecidableEq, Repr

/-- JavaScript subtraction on `JsFloat` (used by the quality comparator
`(a, b) => b.quality - a.quality`).  The finite case is the exact
difference: the comparator's result is only ever tested for sign, every
finite double is an integer multiple of `2 ^ (-1074)`, so a nonzero
exact difference of two doubles has magnitude at least `2 ^ (-1074)` and
IEEE subtraction (monotone, sign-preserving, exact at that magnitude)
never flips or zeroes its sign — exact subtraction is therefore
observationally faithful here. -/
def JsFloat.sub : JsFloat → JsFloat → JsFloat
  | .nan, _ => .nan
  | _, .nan => .nan
  | .posInf, .posInf => .nan
  | .posInf, _ => .posInf
  | .negInf, .negInf => .nan
  | .negInf, _ => .negInf
  | .val _, .posInf => .negInf
  | .val _, .negInf => .posInf
  | .val a, .val b => .val (a - b)

/-- The JavaScript test `x <= 0` (false for `NaN`). -/
def JsFloat.leZero : JsFloat → Bool
  | .nan => false
  | .posInf => false
  | .negInf => true
  | .val q => q ≤ 0

/-- Whether a `JsFloat` is a finite number. -/
def JsFloat.isVal : JsFloat → Bool
  | .val _ => true
  | _ => false

/-! ## String utilities mirroring the JavaScript ones -/

/-- `String.prototype.split` with a single-character separator, on the
underlying character list. -/
def splitCharList (sep : Char) : List Char → List (List Char)
  | [] => [[]]
  | c :: cs =>
    if c = sep then [] :: splitCharList sep cs
    else
      match splitCharList sep cs with
      | [] => [[c]]
      | h :: t => (c :: h) :: t

/-- `s.split(sep)` for a one-character separator `sep`. -/
def splitChar (sep : Char) (s : String) : List String :=
  (splitCharList sep s.data).map String.mk

/-- The JavaScript whitespace class `\s` (also the `StrWhiteSpace` set
trimmed by `parseFloat`): tab, LF, VT, FF, CR, space, NBSP, and the
Unicode space separators, line/paragraph separators, narrow NBSP,
mathematical space, ideographic space and BOM. -/
def isJsWhitespace (c : Char) : Bool :=
  (9 ≤ c.toNat ∧ c.toNat ≤ 13) ∨ c = ' ' ∨ c.toNat = 0xa0 ∨ c.toNat = 0x1680 ∨
    (0x2000 ≤ c.toNat ∧ c.toNat ≤ 0x200a) ∨ c.toNat = 0x2028 ∨ c.toNat = 0x2029 ∨
    c.toNat = 0x202f ∨ c.toNat = 0x205f ∨ c.toNat = 0x3000 ∨ c.toNat = 0xfeff

/-- Helper for `removeFirstWsRun`. -/
def removeFirstWsRunAux : List Char → List Char
  | [] => []
  | c :: cs =>
    if isJsWhitespace c then cs.dropWhile isJsWhitespace
    else c :: removeFirstWsRunAux cs

/-- `s.replace(/\s+/, '')`: delete the first maximal run of whitespace. -/
def removeFirstWsRun (s : String) : String :=
  String.mk (removeFirstWsRunAux s.data)

/-- Numeric value of a digit string (most significant first). -/
def digitsValAux (acc : ℕ) : List Char → ℕ
  | [] => acc
  | c :: cs => digitsValAux (acc * 10 + (c.toNat - 48)) cs

/-! ### Correctly rounded IEEE-754 binary64 values

Modelled from the spec: quality values are JavaScript numbers, i.e.
IEEE-754 binary64 doubles, and `parseFloat` yields the literal's exact
decimal value correctly rounded to the nearest double (ties to even).
A finite double is an exactly representable rational, so the carrier
stays `ℚ`; `roundToDouble` maps an exact literal value onto that set. -/

/-- Bit length of a natural number (0 for 0); the first argument is fuel
bounding the recursion depth (the number itself always suffices). -/
def natBitsAux : ℕ → ℕ → ℕ
  | 0, _ => 0
  | fuel + 1, n => if n = 0 then 0 else natBitsAux fuel (n / 2) + 1

/-- Bit length of a natural number. -/
def natBits (n : ℕ) : ℕ := natBitsAux n n

/-- Round `a / b` to the nearest natural, ties to even (`b > 0`). -/
def rhe (a b : ℕ) : ℕ :=
  let d := a / b
  let r := a % b
  if 2 * r < b then d
  else if 2 * r > b then d + 1
  else if d % 2 = 0 then d else d + 1

/-- Whether `2 ^ e ≤ p / q` (for `p, q ≥ 1`). -/
def pow2le (e : ℤ) (p q : ℕ) : Bool :=
  if 0 ≤ e then q * 2 ^ e.toNat ≤ p else q ≤ p * 2 ^ (-e).toNat

/-- `⌊log2 (p / q)⌋` for `p, q ≥ 1`. -/
def floorLog2 (p q : ℕ) : ℤ :=
  let e0 : ℤ := (natBits p : ℤ) - (natBits q : ℤ)
  if pow2le e0 p q then e0 else e0 - 1

/-- Round the positive rational `p / q` to the nearest binary64 value
(ties to even): `none` on overflow to infinity, otherwise the exact
rational denoted by the resulting double (subnormals and underflow to
zero included). -/
def roundPosToDouble (p q : ℕ) : Option ℚ :=
  let e := floorLog2 p q
  if e ≤ -1023 then
    some ((rhe (p * 2 ^ 1074) q : ℚ) / ((2 ^ 1074 : ℕ) : ℚ))
  else
    let s : ℤ := 52 - e
    let n := if 0 ≤ s then rhe (p * 2 ^ s.toNat) q else rhe p (q * 2 ^ (-s).toNat)
    let en : ℤ × ℕ := if n = 2 ^ 53 then (e + 1, 2 ^ 52) else (e, n)
    if 1024 ≤ en.1 then none
    else if 52 ≤ en.1 then some ((en.2 * 2 ^ (en.1 - 52).toNat : ℕ) : ℚ)
    else some ((en.2 : ℚ) / ((2 ^ (52 - en.1).toNat : ℕ) : ℚ))

/-- Round an exact literal value to the binary64 value JavaScript holds:
overflow gives the appropriately signed infinity. -/
def roundToDouble (x : ℚ) : JsFloat :=
  if x = 0 then .val 0
  else
    match roundPosToDouble x.num.natAbs x.den with
    | none => if x < 0 then .negInf else .posInf
    | some d => .val (if x < 0 then -d else d)

/-- Core of the `parseFloat` model, after leading whitespace was dropped:
optional sign, then `Infinity`, or digits with optional fraction and
exponent; trailing garbage is ignored; no digits at all yields `NaN`;
the exact decimal value is rounded once to the nearest binary64. -/
def parseFloatAux (cs : List Char) : JsFloat :=
  let signAndRest : Bool × List Char :=
    match cs with
    | '-' :: t => (true, t)
    | '+' :: t => (false, t)
    | t => (false, t)
  let neg := signAndRest.1
  let cs1 := signAndRest.2
  if ("Infinity".data).isPrefixOf cs1 then
    (if neg then .negInf else .posInf)
  else
    let intD := cs1.takeWhile Char.isDigit
    let rest1 := cs1.dropWhile Char.isDigit
    let fracAndRest : List Char × List Char :=
      match rest1 with
      | '.' :: t => (t.takeWhile Char.isDigit, t.dropWhile Char.isDigit)
      | t => ([], t)
    let fracD := fracAndRest.1
    let rest2 := fracAndRest.2
    if intD.isEmpty && fracD.isEmpty then .nan
    else
      let e : ℤ :=
        match rest2 with
        | c :: t =>
          if c = 'e' ∨ c = 'E' then
            let esignAndRest : Bool × List Char :=
              match t with
              | '-' :: u => (true, u)
              | '+' :: u => (false, u)
              | u => (false, u)
            let expD := esignAndRest.2.takeWhile Char.isDigit
            if expD.isEmpty then 0
            else if esignAndRest.1 then -(digitsValAux 0 expD : ℤ)
            else (digitsValAux 0 expD : ℤ)
          else 0
        | [] => 0
      let mant : ℚ :=
        (digitsValAux 0 intD : ℚ) + (digitsValAux 0 fracD : ℚ) / (10 : ℚ) ^ fracD.length
      let q : ℚ := mant * (10 : ℚ) ^ e
      roundToDouble (if neg then -q else q)

/-- JavaScript `parseFloat` on a string argument. -/
def parseFloat (s : String) : JsFloat :=
  parseFloatAux (s.data.dropWhile isJsWhitespace)

/-! ## Requested tags and the quality-sorted priority list -/

/-- One component of the priority list: the raw tag text before `;` and
its quality (the objects built inside `parseAndSortLanguageTags`). -/
structure RequestedTag where
  tag : String
  quality : JsFloat
deriving DecidableEq, Repr

/-- The comparator passed to the stable sort:
`(a, b) => b.quality - a.quality`. -/
def cmpQ (a b : RequestedTag) : JsFloat :=
  JsFloat.sub b.quality a.quality

/-- Modelled from the spec: insertion step of the external stable-sort
collaborator (`stableSort(items, compare)`, total order by `compare`,
ties resolved by original position).  `a` is placed before the first `b`
with `compare(a, b) <= 0`. -/
def orderedIns (c : RequestedTag → RequestedTag → JsFloat) (a : RequestedTag) :
    List RequestedTag → List RequestedTag
  | [] => [a]
  | b :: l => if (c a b).leZero then a :: b :: l else b :: orderedIns c a l

/-- Modelled from the spec: the external `stable` package
(`stableSort(items, compare) -> sequence`), as a stable insertion sort.
Earlier elements are inserted into the sorted remainder before any
element they compare `<= 0` against, so equal elements keep their
original relative order. -/
def stable (xs : List RequestedTag) (c : RequestedTag → RequestedTag → JsFloat) :
    List RequestedTag :=
  match xs with
  | [] => []
  | a :: l => orderedIns c a (stable l c)

/-- The `.map` body of `parseAndSortLanguageTags`: strip the first
whitespace run, split on `;`; the tag is `components[0]` and the quality
is `parseFloat(components[1].split('=')[1])` when `components[1]` is
truthy, else `1.0`. -/
def parseWeightedRange (weightedLanguageRange : String) : RequestedTag :=
  match splitChar ';' (removeFirstWsRun weightedLanguageRange) with
  | [] => { tag := "", quality := .val 1 }
  | [tagOnly] => { tag := tagOnly, quality := .val 1 }
  | tagPart :: c1 :: _ =>
    { tag := tagPart
      quality :=
        if c1 = "" then .val 1
        else
          match splitChar '=' c1 with
          | _ :: v :: _ => parseFloat v
          | _ => .nan }

/-- The mapped-and-filtered component list of `parseAndSortLanguageTags`
before sorting: split the priority list on `,`, parse each component, and
drop components whose tag text is empty. -/
def rawTags (languagePriorityList : String) : List RequestedTag :=
  ((splitChar ',' languagePriorityList).map parseWeightedRange).filter
    (fun languageTag => languageTag.tag != "")

/-- `parseAndSortLanguageTags`: parse the priority list and stable-sort
its components by descending quality. -/
def parseAndSortLanguageTags (languagePriorityList : String) : List RequestedTag :=
  stable (rawTags languagePriorityList) cmpQ

/-! ## The external BCP47 parser

Modelled from the spec: `parseBcp47(tagString) -> ParsedTag | null`
returns null on any grammar violation, and on success exposes `language`
(optional), optional `script`, optional `region`, an ordered `variant`
list, an ordered `extension` list (each record with an ordered subtag
list), and an ordered `privateuse` list.  The grammar implemented is the
BCP47 `langtag` / `privateuse` ABNF, case-insensitively, preserving the
original case of each subtag. -/

/-- One extension record of a parsed tag: its singleton and its ordered
subtag list. -/
structure ExtensionRecord where
  singleton : String
  extension : List String
deriving DecidableEq, Repr

/-- A parsed BCP47 tag (the `langtag` object of the external parser).
Absent `language`/`script`/`region` are `none`; the list-valued
categories are empty lists when absent, as the parser always returns
arrays there. -/
structure LangTag where
  language : Option String
  extlang : List String
  script : Option String
  region : Option String
  variant : List String
  extension : List ExtensionRecord
  privateuse : List String
deriving DecidableEq, Repr

/-- ASCII letter. -/
def isAsciiAlpha (c : Char) : Bool := ('a' ≤ c ∧ c ≤ 'z') ∨ ('A' ≤ c ∧ c ≤ 'Z')

/-- ASCII digit. -/
def isAsciiDigit (c : Char) : Bool := '0' ≤ c ∧ c ≤ '9'

/-- ASCII letter or digit. -/
def isAlphanum (c : Char) : Bool := isAsciiAlpha c || isAsciiDigit c

/-- All characters of `s` are ASCII letters. -/
def allAlpha (s : String) : Bool := s.data.all isAsciiAlpha

/-- All characters of `s` are ASCII letters or digits. -/
def allAlphanum (s : String) : Bool := s.data.all isAlphanum

/-- `extlang` subtag: exactly 3 letters. -/
def isExtlangSub (t : String) : Bool := t.data.length = 3 && allAlpha t

/-- `script` subtag: exactly 4 letters. -/
def isScriptSub (t : String) : Bool := t.data.length = 4 && allAlpha t

/-- `region` subtag: 2 letters or 3 digits. -/
def isRegionSub (t : String) : Bool :=
  (t.data.length = 2 && allAlpha t) || (t.data.length = 3 && t.data.all isAsciiDigit)

/-- `variant` subtag: 5-8 alphanumerics, or a digit followed by 3
alphanumerics. -/
def isVariantSub (t : String) : Bool :=
  (decide (5 ≤ t.data.length) && decide (t.data.length ≤ 8) && allAlphanum t) ||
    (t.data.length = 4 &&
      (match t.data with
       | c :: _ => isAsciiDigit c
       | [] => false) && allAlphanum t)

/-- `singleton` introducing an extension: one alphanumeric other than
`x`/`X`. -/
def isSingletonSub (t : String) : Bool :=
  t.data.length = 1 && allAlphanum t && t != "x" && t != "X"

/-- Extension subtag: 2-8 alphanumerics. -/
def isExtSub (t : String) : Bool :=
  decide (2 ≤ t.data.length) && decide (t.data.length ≤ 8) && allAlphanum t

/-- Private-use subtag: 1-8 alphanumerics. -/
def isPrivSub (t : String) : Bool :=
  decide (1 ≤ t.data.length) && decide (t.data.length ≤ 8) && allAlphanum t

/-- The private-use singleton `x`/`X`. -/
def isPrivSingleton (t : String) : Bool := t == "x" || t == "X"

/-- Greedily take up to `n` extlang subtags. -/
def takeExtlang : ℕ → List String → List String × List String
  | 0, l => ([], l)
  | _ + 1, [] => ([], [])
  | n + 1, t :: ts =>
    if isExtlangSub t then
      let er := takeExtlang n ts
      (t :: er.1, er.2)
    else ([], t :: ts)

/-- Take one optional subtag matched by `p`. -/
def takeOptSub (p : String → Bool) : List String → Option String × List String
  | [] => (none, [])
  | t :: ts => if p t then (some t, ts) else (none, t :: ts)

/-- Greedily take extension records (`singleton 1*("-" subtag)`); the
first argument is fuel bounding the number of records (the list length
always suffices, as each record consumes at least two subtags). -/
def takeExts : ℕ → List String → Option (List ExtensionRecord × List String)
  | _, [] => some ([], [])
  | 0, _ :: _ => none
  | fuel + 1, t :: ts =>
    if isSingletonSub t then
      match ts.takeWhile isExtSub with
      | [] => none
      | s :: ss =>
        match takeExts fuel (ts.dropWhile isExtSub) with
        | none => none
        | some (recs, rest) => some ({ singleton := t, extension := s :: ss } :: recs, rest)
    else some ([], t :: ts)

/-- Modelled from the spec: the external `bcp47.parse`, restricted to the
`langtag` and pure-`privateuse` productions of the Language-Tag ABNF.
A private-use-only tag parses with `language := none` (no primary
language subtag).  Grammar violations give `none`. -/
def bcp47parse (languageTag : String) : Option LangTag :=
  match splitChar '-' languageTag with
  | [] => none
  | t :: rest =>
    if isPrivSingleton t then
      match rest with
      | [] => none
      | _ :: _ =>
        if rest.all isPrivSub then
          some { language := none, extlang := [], script := none, region := none,
                 variant := [], extension := [], privateuse := [] }
        else none
    else if decide (2 ≤ t.data.length) && decide (t.data.length ≤ 8) && allAlpha t then
      let extlangAndRest :=
        if t.data.length ≤ 3 then takeExtlang 3 rest else ([], rest)
      let scriptAndRest := takeOptSub isScriptSub extlangAndRest.2
      let regionAndRest := takeOptSub isRegionSub scriptAndRest.2
      let vars := regionAndRest.2.takeWhile isVariantSub
      let r4 := regionAndRest.2.dropWhile isVariantSub
      match takeExts r4.length r4 with
      | none => none
      | some (exts, r5) =>
        match r5 with
        | [] =>
          some { language := some t, extlang := extlangAndRest.1,
                 script := scriptAndRest.1, region := regionAndRest.1,
                 variant := vars, extension := exts, privateuse := [] }
        | x :: pu =>
          if isPrivSingleton x then
            match pu with
            | [] => none
            | _ :: _ =>
              if pu.all isPrivSub then
                some { language := some t, extlang := extlangAndRest.1,
                       script := scriptAndRest.1, region := regionAndRest.1,
                       variant := vars, extension := exts, privateuse := pu }
              else none
          else none
    else none

/-! ## The matching predicate of `AcceptLanguage.parse`

The source walks `['privateuse', 'extension', 'variant', 'region',
'script']` with a labelled `continue middle` on the first rejection; this
is re-expressed as a short-circuiting boolean conjunction in the same
category order.  Array-valued categories are always present (possibly
empty) on both sides, so the JS falsiness checks only act on
`region`/`script`; for arrays, rejection happens exactly when the defined
list is not a position-by-position prefix of the requested one. -/

/-- One extension record versus the positionally corresponding requested
records: every defined record's subtag list must be a prefix of the
requested record at the same index (the singleton itself is never
compared by the source). -/
def extRecordsCompatible : List ExtensionRecord → List ExtensionRecord → Bool
  | [], _ => true
  | d :: ds, [] => d.extension.isEmpty && extRecordsCompatible ds []
  | d :: ds, r :: rs => d.extension.isPrefixOf r.extension && extRecordsCompatible ds rs

/-- `region`/`script` check: skipped when the defined side is absent;
when the defined side is present the requested side must be present and
equal. -/
def optCompatible (d r : Option String) : Bool :=
  match d with
  | none => true
  | some dv =>
    match r with
    | none => false
    | some rv => dv == rv

/-- The full specificity check of the inner loop, in the source's
category order. -/
def isCompatible (defined requested : LangTag) : Bool :=
  defined.privateuse.isPrefixOf requested.privateuse &&
    extRecordsCompatible defined.extension requested.extension &&
    defined.variant.isPrefixOf requested.variant &&
    optCompatible defined.region requested.region &&
    optCompatible defined.script requested.script

/-! ## The `AcceptLanguage` instance state and its operations -/

/-- A parsed supported tag together with the original string supplied by
the application (`LanguageTagWithValue`). -/
structure LanguageTagWithValue extends LangTag where
  value : String
deriving DecidableEq, Repr

/-- The errors `languages` can raise.  The source throws
`Error`/`TypeError` with distinguishing messages; the first three names
are the design document's taxonomy.  `inheritedBucketError` is the
TypeError the source raises when a tag's primary language collides with
an inherited property of the plain-object index: the truthy inherited
value defeats the `!this.languageTagsWithValues[language]` existence
check and `.push` is called on a non-array. -/
inductive LangError where
  | configurationError : LangError
  | invalidTagError (tag : String) : LangError
  | unsupportedTagError (tag : String) : LangError
  | inheritedBucketError (tag : String) : LangError
deriving DecidableEq, Repr

/-- The mutable state of an `AcceptLanguage` instance: the bucket index
`languageTagsWithValues` (a string-keyed object, modelled as an
association list) and `defaultLanguageTag`. -/
structure AcceptLanguage where
  languageTagsWithValues : List (String × List LanguageTagWithValue)
  defaultLanguageTag : Option String
deriving DecidableEq, Repr

/-- A freshly constructed, unconfigured instance (`new AcceptLanguage()`). -/
def emptyAL : AcceptLanguage := { languageTagsWithValues := [], defaultLanguageTag := none }

/-- Lookup of an own property of the index object (the association list
holds exactly the object's own keys). -/
def lookupAL : List (String × List LanguageTagWithValue) → String →
    Option (List LanguageTagWithValue)
  | [], _ => none
  | (k, vs) :: rest, k2 => if k2 = k then some vs else lookupAL rest k2

/-- The property names a plain `{}` object inherits from
`Object.prototype`: reading any of them on the index yields a truthy
non-array value even though no bucket was ever stored there. -/
def protoProps : List String :=
  ["constructor", "hasOwnProperty", "isPrototypeOf", "propertyIsEnumerable",
   "toLocaleString", "toString", "valueOf", "__proto__", "__defineGetter__",
   "__defineSetter__", "__lookupGetter__", "__lookupSetter__"]

/-- The observable outcomes of the JS property read
`this.languageTagsWithValues[key]`: an own bucket (a stored array), a
truthy non-array value inherited from `Object.prototype`, or
`undefined`. -/
inductive PropValue where
  | bucket (b : List LanguageTagWithValue) : PropValue
  | inherited : PropValue
  | absent : PropValue
deriving DecidableEq, Repr

/-- The JS property read `this.languageTagsWithValues[key]`: an own
property shadows the prototype; otherwise an `Object.prototype` name
yields the inherited (truthy, non-array) value, and any other key is
`undefined`. -/
def objGet (m : List (String × List LanguageTagWithValue)) (k : String) : PropValue :=
  match lookupAL m k with
  | some b => .bucket b
  | none => if k ∈ protoProps then .inherited else .absent

/-- The bucket update of `languages`: create a one-element bucket for a
new key, or push onto the existing bucket. -/
def insertAppend : List (String × List LanguageTagWithValue) → String →
    LanguageTagWithValue → List (String × List LanguageTagWithValue)
  | [], k, v => [(k, [v])]
  | (k', vs) :: rest, k, v =>
    if k' = k then (k', vs ++ [v]) :: rest
    else (k', vs) :: insertAppend rest k v

/-- The per-tag body of the `forEach` in `languages`: parse the tag
(`InvalidTagError` on null), require a primary language
(`UnsupportedTagError` otherwise), and append to the bucket of that
language — except that when the property read hits a truthy value
inherited from `Object.prototype`, the `else` branch calls `.push` on a
non-array and a TypeError escapes. -/
def addTag (st : AcceptLanguage) (languageTagString : String) :
    Except LangError AcceptLanguage :=
  match bcp47parse languageTagString with
  | none => .error (.invalidTagError languageTagString)
  | some languageTag =>
    match languageTag.language with
    | none => .error (.unsupportedTagError languageTagString)
    | some language =>
      match objGet st.languageTagsWithValues language with
      | .inherited => .error (.inheritedBucketError languageTagString)
      | _ =>
        .ok { st with
                languageTagsWithValues :=
                  insertAppend st.languageTagsWithValues language
                    { toLangTag := languageTag, value := languageTagString } }

/-- The `forEach` of `languages`: process the tags in order; a thrown
error stops the iteration, leaving the state mutated so far. -/
def languagesAux : List String → AcceptLanguage → Option LangError × AcceptLanguage
  | [], st => (none, st)
  | t :: ts, st =>
    match addTag st t with
    | .error e => (some e, st)
    | .ok st' => languagesAux ts st'

/-- `AcceptLanguage.languages(definedLanguages)`: reject an empty list
before touching the state; otherwise clear the index, add each tag in
order (an error escapes with the partially rebuilt index), and finally
set `defaultLanguageTag` to the first supplied string. -/
def AcceptLanguage.languages (self : AcceptLanguage) (definedLanguages : List String) :
    Option LangError × AcceptLanguage :=
  if definedLanguages.length < 1 then (some .configurationError, self)
  else
    match languagesAux definedLanguages { self with languageTagsWithValues := [] } with
    | (some e, st2) => (some e, st2)
    | (none, st2) => (none, { st2 with defaultLanguageTag := definedLanguages[0]? })

/-- The per-requested-tag body of the `for` loop in `parse`, as its
non-throwing projection (the faithful, exception-aware translation is
`matchesForTagE` below; the two agree whenever the source does not
throw): parse the requested tag, look up the bucket of its primary
language, and collect (in bucket order) the `value` of every compatible
defined tag. -/
def matchesForTag (self : AcceptLanguage) (tagStr : String) : List String :=
  match bcp47parse tagStr with
  | none => []
  | some requestedLangTag =>
    match requestedLangTag.language with
    | none => []
    | some language =>
      match lookupAL self.languageTagsWithValues language with
      | none => []
      | some bucket =>
        (bucket.filter fun definedLangTag =>
            isCompatible definedLangTag.toLangTag requestedLangTag).map
          (fun definedLangTag => definedLangTag.value)

/-- `AcceptLanguage.parse(languagePriorityList)`: a falsy priority list
(null, undefined, or the empty string) yields `[defaultLanguageTag]`;
otherwise collect matches for each quality-sorted component and fall back
to `[defaultLanguageTag]` when nothing matched. -/
def AcceptLanguage.parse (self : AcceptLanguage)
    (languagePriorityList : Option String) : List (Option String) :=
  match languagePriorityList with
  | none => [self.defaultLanguageTag]
  | some s =>
    if s = "" then [self.defaultLanguageTag]
    else
      let result :=
        (parseAndSortLanguageTags s).flatMap fun languageTag =>
          matchesForTag self languageTag.tag
      if result.length > 0 then result.map some else [self.defaultLanguageTag]

/-- `AcceptLanguage.get(languagePriorityList)`: the first element of
`parse` (or null when the array is empty, which never happens). -/
def AcceptLanguage.get (self : AcceptLanguage)
    (languagePriorityList : Option String) : Option String :=
  ((self.parse languagePriorityList).head?).getD none

/-- The runtime TypeError `parse` can raise: `for...of` over the truthy
non-iterable value inherited from `Object.prototype` when a requested
tag's primary language is one of its property names. -/
inductive JsTypeError where
  | notIterable (language : String) : JsTypeError
deriving DecidableEq, Repr

deriving instance DecidableEq for Except

/-- The faithful, exception-aware per-requested-tag body: the falsy
check skips an absent bucket, an own bucket is filtered as usual, and a
truthy inherited property passes the check but throws a TypeError when
the `for...of` tries to iterate it.  A requested tag with no primary
language looks up a null key, for which neither an own nor an inherited
property exists, so it is skipped. -/
def matchesForTagE (self : AcceptLanguage) (tagStr : String) :
    Except JsTypeError (List String) :=
  match bcp47parse tagStr with
  | none => .ok []
  | some requestedLangTag =>
    match requestedLangTag.language with
    | none => .ok []
    | some language =>
      match objGet self.languageTagsWithValues language with
      | .absent => .ok []
      | .inherited => .error (.notIterable language)
      | .bucket bucket =>
        .ok ((bucket.filter fun definedLangTag =>
                isCompatible definedLangTag.toLangTag requestedLangTag).map
              (fun definedLangTag => definedLangTag.value))

/-- The accumulation loop of `parse` over the sorted components, with a
thrown TypeError aborting the loop (and discarding the pushed results,
as the exception escapes the method). -/
def collectMatches (self : AcceptLanguage) :
    List RequestedTag → Except JsTypeError (List String)
  | [] => .ok []
  | lt :: lts =>
    match matchesForTagE self lt.tag with
    | .error e => .error e
    | .ok ms =>
      match collectMatches self lts with
      | .error e => .error e
      | .ok rest => .ok (ms ++ rest)

/-- `AcceptLanguage.parse`, exception-aware: the faithful translation of
the method, returning `.error` exactly when the source throws. -/
def parseE (self : AcceptLanguage) (languagePriorityList : Option String) :
    Except JsTypeError (List (Option String)) :=
  match languagePriorityList with
  | none => .ok [self.defaultLanguageTag]
  | some s =>
    if s = "" then .ok [self.defaultLanguageTag]
    else
      match collectMatches self (parseAndSortLanguageTags s) with
      | .error e => .error e
      | .ok result =>
        .ok (if result.length > 0 then result.map some else [self.defaultLanguageTag])

/-- `AcceptLanguage.get`, exception-aware: a TypeError thrown by `parse`
escapes `get` unchanged. -/
def getE (self : AcceptLanguage) (languagePriorityList : Option String) :
    Except JsTypeError (Option String) :=
  (parseE self languagePriorityList).map fun l => (l.head?).getD none

/-- A requested tag string is safe against the prototype chain: its
parsed primary language (if any) does not read a truthy inherited
property of the index. -/
def tagSafe (self : AcceptLanguage) (tagStr : String) : Bool :=
  match bcp47parse tagStr with
  | none => true
  | some requestedLangTag =>
    match requestedLangTag.language with
    | none => true
    | some language =>
      match objGet self.languageTagsWithValues language with
      | .inherited => false
      | _ => true

/-- Build an instance from `emptyAL` by one `languages` call (keeping the
resulting state whether or not an error was raised). -/
def mkAL (tags : List String) : AcceptLanguage :=
  (emptyAL.languages tags).2

/-! ## Instances and the factory (`create`)

The exported factory `create()` constructs an instance and overwrites its
`create` method to return `new AcceptLanguage()`; the class's own
`create` method returns `null as any` despite its declared return type
`this`.  An instance value is therefore a state paired with what its
`create` method returns. -/

/-- An instance as observable through the API: its state plus the result
of invoking its `create` method. -/
inductive ALInstance where
  | mk (state : AcceptLanguage) (createResult : Option ALInstance) : ALInstance

/-- The state of an instance. -/
def ALInstance.state : ALInstance → AcceptLanguage
  | .mk s _ => s

/-- What invoking the instance's `create` method returns (`none` models
the class method's `return null as any`). -/
def ALInstance.createResult : ALInstance → Option ALInstance
  | .mk _ c => c

/-- `new AcceptLanguage()`: fresh empty state; its `create` method is the
class one, which returns null. -/
def newAcceptLanguage : ALInstance := .mk emptyAL none

/-- The module factory `create()`: fresh empty state, with the `create`
method overridden to return `new AcceptLanguage()`. -/
def moduleCreate : ALInstance := .mk emptyAL (some newAcceptLanguage)

/-! ## Lemmas about the stable quality sort -/

/-- The ordering relation realised by the comparator: `a` may precede `b`
because `compare(a, b) = b.quality - a.quality <= 0`, i.e. `a`'s quality
is at least `b`'s. -/
def qRel (a b : RequestedTag) : Prop := (cmpQ a b).leZero = true

instance : DecidablePred fun p : RequestedTag × RequestedTag => qRel p.1 p.2 :=
  fun _ => instDecidableEqBool _ _

lemma isVal_iff {f : JsFloat} : f.isVal = true ↔ ∃ q, f = .val q := by
  cases f <;> simp [JsFloat.isVal]

lemma cmpQ_val {a b : RequestedTag} {x y : ℚ} (ha : a.quality = .val x)
    (hb : b.quality = .val y) : cmpQ a b = .val (y - x) := by
  simp [cmpQ, ha, hb, JsFloat.sub]

lemma leZero_val {q : ℚ} : (JsFloat.val q).leZero = true ↔ q ≤ 0 := by
  simp [JsFloat.leZero]

lemma qRel_total {a b : RequestedTag} (ha : a.quality.isVal = true)
    (hb : b.quality.isVal = true) : qRel a b ∨ qRel b a := by
  obtain ⟨x, hx⟩ := isVal_iff.mp ha
  obtain ⟨y, hy⟩ := isVal_iff.mp hb
  unfold qRel
  rw [cmpQ_val hx hy, cmpQ_val hy hx, leZero_val, leZero_val]
  rcases le_total y x with h | h
  · exact Or.inl (by linarith)
  · exact Or.inr (by linarith)

lemma qRel_trans {a b c : RequestedTag} (ha : a.quality.isVal = true)
    (hb : b.quality.isVal = true) (hc : c.quality.isVal = true)
    (hab : qRel a b) (hbc : qRel b c) : qRel a c := by
  obtain ⟨x, hx⟩ := isVal_iff.mp ha
  obtain ⟨y, hy⟩ := isVal_iff.mp hb
  obtain ⟨z, hz⟩ := isVal_iff.mp hc
  unfold qRel at hab hbc ⊢
  rw [cmpQ_val hx hy, leZero_val] at hab
  rw [cmpQ_val hy hz, leZero_val] at hbc
  rw [cmpQ_val hx hz, leZero_val]
  linarith

lemma mem_orderedIns {a x : RequestedTag} {l : List RequestedTag} :
    x ∈ orderedIns cmpQ a l ↔ x = a ∨ x ∈ l := by
  induction l with
  | nil => simp [orderedIns]
  | cons b l ih =>
    by_cases h : (cmpQ a b).leZero = true
    · simp [orderedIns, h]
    · simp only [orderedIns, if_neg h, List.mem_cons, ih]
      tauto

lemma perm_orderedIns (a : RequestedTag) (l : List RequestedTag) :
    (orderedIns cmpQ a l).Perm (a :: l) := by
  induction l with
  | nil => simp [orderedIns]
  | cons b l ih =>
    by_cases h : (cmpQ a b).leZero = true
    · simp [orderedIns, h]
    · simp only [orderedIns, if_neg h]
      exact (ih.cons b).trans (List.Perm.swap a b l)

lemma perm_stable (l : List RequestedTag) : (stable l cmpQ).Perm l := by
  induction l with
  | nil => simp [stable]
  | cons a l ih =>
    exact (perm_orderedIns a (stable l cmpQ)).trans (ih.cons a)

lemma sorted_orderedIns {a : RequestedTag} {l : List RequestedTag}
    (ha : a.quality.isVal = true) (hl : ∀ x ∈ l, x.quality.isVal = true)
    (hs : l.Pairwise qRel) : (orderedIns cmpQ a l).Pairwise qRel := by
  induction l with
  | nil => simp [orderedIns, List.Pairwise]
  | cons b l ih =>
    rw [List.pairwise_cons] at hs
    by_cases h : (cmpQ a b).leZero = true
    · rw [orderedIns, if_pos h, List.pairwise_cons]
      refine ⟨?_, List.pairwise_cons.mpr hs⟩
      intro x hx
      rcases List.mem_cons.mp hx with rfl | hx
      · exact h
      · exact qRel_trans ha (hl b (by simp)) (hl x (by simp [hx])) h (hs.1 x hx)
    · rw [orderedIns, if_neg h, List.pairwise_cons]
      refine ⟨?_, ih (fun x hx => hl x (by simp [hx])) hs.2⟩
      intro x hx
      rcases mem_orderedIns.mp hx with rfl | hx
      · rcases qRel_total ha (hl b (by simp)) with hab | hba
        · exact absurd hab h
        · exact hba
      · exact hs.1 x hx

lemma sorted_stable {l : List RequestedTag}
    (hl : ∀ x ∈ l, x.quality.isVal = true) : (stable l cmpQ).Pairwise qRel := by
  induction l with
  | nil => simp [stable]
  | cons a l ih =>
    refine sorted_orderedIns (hl a (by simp)) ?_ (ih fun x hx => hl x (by simp [hx]))
    intro x hx
    exact hl x (by simp [(perm_stable l).mem_iff.mp hx])

lemma filter_orderedIns (q : ℚ) {a : RequestedTag} {l : List RequestedTag}
    (hl : ∀ x ∈ l, x.quality.isVal = true) :
    (orderedIns cmpQ a l).filter (fun x => x.quality == JsFloat.val q) =
      (a :: l).filter (fun x => x.quality == JsFloat.val q) := by
  induction l with
  | nil => simp [orderedIns]
  | cons b l ih =>
    by_cases h : (cmpQ a b).leZero = true
    · rw [orderedIns, if_pos h]
    · rw [orderedIns, if_neg h]
      have hab : ¬(a.quality = JsFloat.val q ∧ b.quality = JsFloat.val q) := by
        rintro ⟨ha', hb'⟩
        apply h
        rw [cmpQ_val ha' hb', leZero_val]
        simp
      have ihl := ih fun x hx => hl x (by simp [hx])
      by_cases haq : a.quality = JsFloat.val q
      · have hbq : ¬b.quality = JsFloat.val q := fun hb' => hab ⟨haq, hb'⟩
        simp only [List.filter_cons] at ihl ⊢
        simp only [beq_iff_eq, haq, hbq, if_true, if_false, reduceIte] at ihl ⊢
        simpa [hbq] using ihl
      · simp only [List.filter_cons] at ihl ⊢
        simp only [beq_iff_eq, haq, reduceIte] at ihl ⊢
        by_cases hbq : b.quality = JsFloat.val q <;> simp [hbq, ihl]

lemma filter_stable (q : ℚ) {l : List RequestedTag}
    (hl : ∀ x ∈ l, x.quality.isVal = true) :
    (stable l cmpQ).filter (fun x => x.quality == JsFloat.val q) =
      l.filter (fun x => x.quality == JsFloat.val q) := by
  induction l with
  | nil => simp [stable]
  | cons a l ih =>
    have hl' : ∀ x ∈ l, x.quality.isVal = true := fun x hx => hl x (by simp [hx])
    have hmem : ∀ x ∈ stable l cmpQ, x.quality.isVal = true := fun x hx =>
      hl' x ((perm_stable l).mem_iff.mp hx)
    rw [stable, filter_orderedIns q hmem]
    simp only [List.filter_cons]
    rw [ih hl']

/-! ## Lemmas about the registry build -/

/-- Specification-side view of one supported tag: its primary language
key and the stored `LanguageTagWithValue`, or `none` when `languages`
would raise on it (also when the language collides with an inherited
property of the plain-object index, which always crashes the push since
such a key can never acquire an own bucket). -/
def goodTag (languageTagString : String) : Option (String × LanguageTagWithValue) :=
  match bcp47parse languageTagString with
  | none => none
  | some languageTag =>
    match languageTag.language with
    | none => none
    | some language =>
      if language ∈ protoProps then none
      else some (language, { toLangTag := languageTag, value := languageTagString })

/-- The error `addTag` raises on a tag (from a state whose index holds
no prototype-named key), if any. -/
def errOf (languageTagString : String) : Option LangError :=
  match bcp47parse languageTagString with
  | none => some (.invalidTagError languageTagString)
  | some languageTag =>
    match languageTag.language with
    | none => some (.unsupportedTagError languageTagString)
    | some language =>
      if language ∈ protoProps then some (.inheritedBucketError languageTagString)
      else none

/-- An index holds no key that collides with `Object.prototype` (true of
every index the API can build, since such a bucket can never be
created). -/
def protoFree (m : List (String × List LanguageTagWithValue)) : Prop :=
  ∀ p ∈ m, p.1 ∉ protoProps

lemma lookupAL_mem {m : List (String × List LanguageTagWithValue)} {k : String}
    {b : List LanguageTagWithValue} (h : lookupAL m k = some b) : (k, b) ∈ m := by
  induction m with
  | nil => simp [lookupAL] at h
  | cons p m ih =>
    obtain ⟨k', vs⟩ := p
    by_cases hk : k = k'
    · subst hk
      simp [lookupAL] at h
      simp [h]
    · simp only [lookupAL, if_neg hk] at h
      simp [ih h]

lemma protoFree_insertAppend {m : List (String × List LanguageTagWithValue)}
    {k : String} {v : LanguageTagWithValue} (hm : protoFree m)
    (hk : k ∉ protoProps) : protoFree (insertAppend m k v) := by
  induction m with
  | nil =>
    intro p hp
    simp only [insertAppend, List.mem_singleton] at hp
    simp [hp, hk]
  | cons q m ih =>
    obtain ⟨k', vs⟩ := q
    have hm' : protoFree m := fun p hp => hm p (by simp [hp])
    by_cases hk' : k' = k
    · subst hk'
      intro p hp
      simp [insertAppend] at hp
      rcases hp with hp | hp
      · rw [hp]
        simpa using hk
      · exact hm p (by simp [hp])
    · intro p hp
      simp [insertAppend, hk'] at hp
      rcases hp with hp | hp
      · rw [hp]
        exact hm (k', vs) (by simp)
      · exact ih hm' p hp

lemma goodTag_key_not_proto {t : String} {lv : String × LanguageTagWithValue}
    (h : goodTag t = some lv) : lv.1 ∉ protoProps := by
  unfold goodTag at h
  rcases hp : bcp47parse t with _ | lt
  · simp [hp] at h
  · simp only [hp] at h
    rcases hl : lt.language with _ | lang
    · simp [hl] at h
    · simp only [hl] at h
      by_cases hm : lang ∈ protoProps
      · simp [hm] at h
      · simp only [if_neg hm, Option.some.injEq] at h
        subst h
        exact hm

/-- Folding the bucket insertions of `languages` over a tag list
(stopping at the first bad tag, as the thrown error does). -/
def foldIns : List (String × List LanguageTagWithValue) → List String →
    List (String × List LanguageTagWithValue)
  | m, [] => m
  | m, t :: ts =>
    match goodTag t with
    | some lv => foldIns (insertAppend m lv.1 lv.2) ts
    | none => m

/-- The index a successful `languages(tags)` call leaves behind: a
function of `tags` alone. -/
def mkIndex (tags : List String) : List (String × List LanguageTagWithValue) :=
  foldIns [] tags

/-- The supported tags of primary language `lang`, in the order the
application supplied them. -/
def tagsForPairs (tags : List String) (lang : String) : List LanguageTagWithValue :=
  ((tags.filterMap goodTag).filter (fun p => p.1 == lang)).map (fun p => p.2)

/-- Append a bucket-content list to an optional existing bucket
(`none` stays `none` only when nothing is appended). -/
def optBucket (a : Option (List LanguageTagWithValue))
    (b : List LanguageTagWithValue) : Option (List LanguageTagWithValue) :=
  match a with
  | some xs => some (xs ++ b)
  | none => if b.isEmpty then none else some b

lemma protoFree_nil : protoFree [] := by
  intro p hp
  simp at hp

lemma addTag_of_good {t : String} {lv : String × LanguageTagWithValue}
    (h : goodTag t = some lv) (st : AcceptLanguage) :
    addTag st t = .ok { st with
      languageTagsWithValues := insertAppend st.languageTagsWithValues lv.1 lv.2 } := by
  unfold goodTag at h
  unfold addTag
  rcases hp : bcp47parse t with _ | lt
  · simp [hp] at h
  · simp only [hp] at h ⊢
    rcases hl : lt.language with _ | lang
    · simp [hl] at h
    · simp only [hl] at h ⊢
      by_cases hm : lang ∈ protoProps
      · simp [hm] at h
      · simp only [if_neg hm, Option.some.injEq] at h
        subst h
        unfold objGet
        rcases hlk : lookupAL st.languageTagsWithValues lang with _ | b
        · simp [hm]
        · simp

lemma addTag_of_bad {t : String} (h : goodTag t = none) (st : AcceptLanguage)
    (hpf : protoFree st.languageTagsWithValues) :
    ∃ e, errOf t = some e ∧ addTag st t = .error e := by
  unfold goodTag at h
  unfold errOf addTag
  rcases hp : bcp47parse t with _ | lt
  · exact ⟨.invalidTagError t, rfl, rfl⟩
  · simp only [hp] at h ⊢
    rcases hl : lt.language with _ | lang
    · exact ⟨.unsupportedTagError t, by simp [hl], by simp [hl]⟩
    · simp only [hl] at h ⊢
      by_cases hm : lang ∈ protoProps
      · refine ⟨.inheritedBucketError t, by simp [hm], ?_⟩
        unfold objGet
        rcases hlk : lookupAL st.languageTagsWithValues lang with _ | b
        · simp [hm]
        · exact absurd hm (hpf (lang, b) (lookupAL_mem hlk))
      · simp [hm] at h

lemma errOf_none_iff {t : String} :
    errOf t = none ↔
      ∃ lt lang, bcp47parse t = some lt ∧ lt.language = some lang ∧
        lang ∉ protoProps := by
  unfold errOf
  rcases hp : bcp47parse t with _ | lt
  · simp
  · rcases hl : lt.language with _ | lang
    · simp [hl]
    · by_cases hm : lang ∈ protoProps <;> simp [hl, hm]

lemma goodTag_none_iff {t : String} : goodTag t = none ↔ errOf t ≠ none := by
  unfold goodTag errOf
  rcases hp : bcp47parse t with _ | lt
  · simp
  · rcases hl : lt.language with _ | lang
    · simp [hl]
    · by_cases hm : lang ∈ protoProps <;> simp [hl, hm]

lemma errOf_invalid {t t' : String} (h : errOf t = some (.invalidTagError t')) :
    t' = t ∧ bcp47parse t = none := by
  unfold errOf at h
  rcases hp : bcp47parse t with _ | lt
  · simp only [hp, Option.some.injEq, LangError.invalidTagError.injEq] at h
    exact ⟨h.symm, rfl⟩
  · simp only [hp] at h
    rcases hl : lt.language with _ | lang
    · simp [hl] at h
    · by_cases hm : lang ∈ protoProps <;> simp [hl, hm] at h

lemma errOf_unsupported {t t' : String}
    (h : errOf t = some (.unsupportedTagError t')) :
    t' = t ∧ ∃ lt, bcp47parse t = some lt ∧ lt.language = none := by
  unfold errOf at h
  rcases hp : bcp47parse t with _ | lt
  · simp [hp] at h
  · simp only [hp] at h
    rcases hl : lt.language with _ | lang
    · simp only [hl, Option.some.injEq, LangError.unsupportedTagError.injEq] at h
      exact ⟨h.symm, lt, rfl, hl⟩
    · by_cases hm : lang ∈ protoProps <;> simp [hl, hm] at h

lemma errOf_inherited {t t' : String}
    (h : errOf t = some (.inheritedBucketError t')) :
    t' = t ∧ ∃ lt lang, bcp47parse t = some lt ∧ lt.language = some lang ∧
      lang ∈ protoProps := by
  unfold errOf at h
  rcases hp : bcp47parse t with _ | lt
  · simp [hp] at h
  · simp only [hp] at h
    rcases hl : lt.language with _ | lang
    · simp [hl] at h
    · by_cases hm : lang ∈ protoProps
      · simp only [hl, if_pos hm, Option.some.injEq,
          LangError.inheritedBucketError.injEq] at h
        exact ⟨h.symm, lt, lang, rfl, hl, hm⟩
      · simp [hl, hm] at h

lemma errOf_ne_config {t : String} : errOf t ≠ some .configurationError := by
  unfold errOf
  rcases hp : bcp47parse t with _ | lt
  · simp
  · rcases hl : lt.language with _ | lang
    · simp [hl]
    · by_cases hm : lang ∈ protoProps <;> simp [hl, hm]

lemma languagesAux_ok {ts : List String} {st st' : AcceptLanguage}
    (h : languagesAux ts st = (none, st'))
    (hpf : protoFree st.languageTagsWithValues) :
    st' = { st with
      languageTagsWithValues := foldIns st.languageTagsWithValues ts } := by
  induction ts generalizing st with
  | nil =>
    simp only [languagesAux, Prod.mk.injEq] at h
    simp [foldIns, ← h.2]
  | cons t ts ih =>
    rcases hg : goodTag t with _ | lv
    · obtain ⟨e, _, hadd⟩ := addTag_of_bad hg st hpf
      simp [languagesAux, hadd] at h
    · have hadd := addTag_of_good hg st
      simp only [languagesAux, hadd] at h
      have := ih h (protoFree_insertAppend hpf (goodTag_key_not_proto hg))
      simp only [foldIns, hg]
      exact this

lemma languagesAux_fst_none_iff {ts : List String} {st : AcceptLanguage}
    (hpf : protoFree st.languageTagsWithValues) :
    (languagesAux ts st).1 = none ↔ ∀ t ∈ ts, goodTag t ≠ none := by
  induction ts generalizing st with
  | nil => simp [languagesAux]
  | cons t ts ih =>
    constructor
    · intro h t' ht'
      rcases hg : goodTag t with _ | lv
      · obtain ⟨e, _, hadd⟩ := addTag_of_bad hg st hpf
        simp [languagesAux, hadd] at h
      · have hadd := addTag_of_good hg st
        simp only [languagesAux, hadd] at h
        rcases List.mem_cons.mp ht' with rfl | ht'
        · simp [hg]
        · exact ((ih (protoFree_insertAppend hpf (goodTag_key_not_proto hg))).mp h)
            t' ht'
    · intro h
      rcases hg : goodTag t with _ | lv
      · exact absurd hg (h t (by simp))
      · have hadd := addTag_of_good hg st
        simp only [languagesAux, hadd]
        exact (ih (protoFree_insertAppend hpf (goodTag_key_not_proto hg))).mpr
          fun t' ht' => h t' (by simp [ht'])

lemma languagesAux_err {ts : List String} {st st2 : AcceptLanguage} {e : LangError}
    (h : languagesAux ts st = (some e, st2))
    (hpf : protoFree st.languageTagsWithValues) :
    ∃ pre t post, ts = pre ++ t :: post ∧ (∀ p ∈ pre, goodTag p ≠ none) ∧
      errOf t = some e ∧
      st2 = { st with
        languageTagsWithValues := foldIns st.languageTagsWithValues pre } := by
  induction ts generalizing st with
  | nil => simp [languagesAux] at h
  | cons t ts ih =>
    rcases hg : goodTag t with _ | lv
    · obtain ⟨e', he', hadd⟩ := addTag_of_bad hg st hpf
      simp only [languagesAux, hadd, Prod.mk.injEq, Option.some.injEq] at h
      refine ⟨[], t, ts, by simp, by simp, ?_, ?_⟩
      · rw [he', h.1]
      · simp [foldIns, ← h.2]
    · have hadd := addTag_of_good hg st
      simp only [languagesAux, hadd] at h
      obtain ⟨pre, t', post, hts, hpre, herr, hst⟩ :=
        ih h (protoFree_insertAppend hpf (goodTag_key_not_proto hg))
      refine ⟨t :: pre, t', post, by simp [hts], ?_, herr, ?_⟩
      · intro p hp
        rcases List.mem_cons.mp hp with rfl | hp
        · simp [hg]
        · exact hpre p hp
      · simp only [foldIns, hg]
        exact hst

lemma languages_ok {tags : List String} {self st' : AcceptLanguage}
    (h : self.languages tags = (none, st')) :
    st' = { languageTagsWithValues := mkIndex tags,
            defaultLanguageTag := tags[0]? } ∧
      tags ≠ [] ∧ ∀ t ∈ tags, goodTag t ≠ none := by
  unfold AcceptLanguage.languages at h
  by_cases hlen : tags.length < 1
  · simp [hlen] at h
  · rw [if_neg hlen] at h
    rcases haux : languagesAux tags { self with languageTagsWithValues := [] } with
      ⟨err, st2⟩
    rw [haux] at h
    cases err with
    | some e => simp at h
    | none =>
      simp only [Prod.mk.injEq, true_and] at h
      have hidx := languagesAux_ok haux protoFree_nil
      have hall : ∀ t ∈ tags, goodTag t ≠ none :=
        (languagesAux_fst_none_iff protoFree_nil).mp (by rw [haux])
      refine ⟨?_, ?_, hall⟩
      · rw [← h, hidx]
        rfl
      · intro hnil
        exact hlen (by simp [hnil])

lemma languages_fst_none_iff {tags : List String} {self : AcceptLanguage} :
    (self.languages tags).1 = none ↔ tags ≠ [] ∧ ∀ t ∈ tags, goodTag t ≠ none := by
  unfold AcceptLanguage.languages
  by_cases hlen : tags.length < 1
  · have : tags = [] := by
      cases tags with
      | nil => rfl
      | cons a l => simp at hlen
    simp [hlen, this]
  · have hne : tags ≠ [] := by
      intro hnil
      exact hlen (by simp [hnil])
    rw [if_neg hlen]
    rcases haux : languagesAux tags { self with languageTagsWithValues := [] } with
      ⟨err, st2⟩
    have hiff :=
      @languagesAux_fst_none_iff tags { self with languageTagsWithValues := [] }
        protoFree_nil
    rw [haux] at hiff
    cases err with
    | some e => simpa [hne] using hiff
    | none => simpa [hne] using hiff

lemma languages_err {tags : List String} {self st2 : AcceptLanguage} {e : LangError}
    (h : self.languages tags = (some e, st2)) :
    (tags = [] ∧ e = .configurationError ∧ st2 = self) ∨
      (∃ pre t post, tags = pre ++ t :: post ∧ (∀ p ∈ pre, goodTag p ≠ none) ∧
        errOf t = some e ∧
        st2 = { self with languageTagsWithValues := mkIndex pre }) := by
  unfold AcceptLanguage.languages at h
  by_cases hlen : tags.length < 1
  · have htags : tags = [] := by
      cases tags with
      | nil => rfl
      | cons a l => simp at hlen
    rw [if_pos hlen] at h
    simp only [Prod.mk.injEq, Option.some.injEq] at h
    exact Or.inl ⟨htags, h.1.symm, h.2.symm⟩
  · rw [if_neg hlen] at h
    rcases haux : languagesAux tags { self with languageTagsWithValues := [] } with
      ⟨err, st2'⟩
    rw [haux] at h
    cases err with
    | none => simp at h
    | some e' =>
      simp only [Prod.mk.injEq, Option.some.injEq] at h
      obtain ⟨he, hst2⟩ := h
      subst he
      subst hst2
      obtain ⟨pre, t, post, hts, hpre, herr, hst⟩ :=
        languagesAux_err haux protoFree_nil
      exact Or.inr ⟨pre, t, post, hts, hpre, herr, hst⟩

/-! ## Lemmas about bucket lookup after a successful build -/

lemma lookup_insertAppend (m : List (String × List LanguageTagWithValue))
    (k : String) (v : LanguageTagWithValue) (k2 : String) :
    lookupAL (insertAppend m k v) k2 =
      if k2 = k then some (((lookupAL m k).getD []) ++ [v]) else lookupAL m k2 := by
  induction m with
  | nil =>
    by_cases h : k2 = k <;> simp [insertAppend, lookupAL, h]
  | cons p m ih =>
    obtain ⟨k', vs⟩ := p
    by_cases hk : k' = k
    · subst hk
      by_cases h2 : k2 = k' <;> simp [insertAppend, lookupAL, h2]
    · simp only [insertAppend, if_neg hk]
      by_cases h2 : k2 = k'
      · subst h2
        have : ¬k2 = k := hk
        simp [lookupAL, this]
      · have hk' : ¬k = k' := fun h => hk h.symm
        simp [lookupAL, h2, ih, hk']

lemma lookup_foldIns {ts : List String}
    (hgood : ∀ t ∈ ts, goodTag t ≠ none)
    (m : List (String × List LanguageTagWithValue)) (lang : String) :
    lookupAL (foldIns m ts) lang = optBucket (lookupAL m lang) (tagsForPairs ts lang) := by
  induction ts generalizing m with
  | nil =>
    simp only [foldIns, tagsForPairs, List.filterMap_nil, List.filter_nil, List.map_nil]
    rcases lookupAL m lang with _ | xs <;> simp [optBucket]
  | cons t ts ih =>
    rcases hg : goodTag t with _ | lv
    · exact absurd hg (hgood t (by simp))
    · obtain ⟨ℓ, v⟩ := lv
      have hrest : ∀ t' ∈ ts, goodTag t' ≠ none := fun t' ht' => hgood t' (by simp [ht'])
      simp only [foldIns, hg]
      rw [ih hrest]
      have htfp : tagsForPairs (t :: ts) lang =
          (if ℓ = lang then [v] else []) ++ tagsForPairs ts lang := by
        simp only [tagsForPairs, List.filterMap_cons, hg, List.filter_cons]
        by_cases hℓ : ℓ = lang <;> simp [hℓ]
      rw [htfp, lookup_insertAppend]
      by_cases hℓ : ℓ = lang
      · subst hℓ
        rw [if_pos rfl]
        rcases hm : lookupAL m ℓ with _ | xs
        · simp [optBucket]
        · simp [optBucket]
      · rw [if_neg (fun h => hℓ h.symm)]
        simp [hℓ]

/-- Specification-side recomputation of `matchesForTag` after a
successful `languages(tags)` call: filter the supplied tags directly, in
application order. -/
def matchesSpec (tags : List String) (tagStr : String) : List String :=
  match bcp47parse tagStr with
  | none => []
  | some requestedLangTag =>
    match requestedLangTag.language with
    | none => []
    | some language =>
      ((tagsForPairs tags language).filter fun definedLangTag =>
          isCompatible definedLangTag.toLangTag requestedLangTag).map
        (fun definedLangTag => definedLangTag.value)

lemma matchesForTag_eq_spec {tags : List String} {self st' : AcceptLanguage}
    (h : self.languages tags = (none, st')) (tagStr : String) :
    matchesForTag st' tagStr = matchesSpec tags tagStr := by
  obtain ⟨hst, _, hall⟩ := languages_ok h
  have hidx : st'.languageTagsWithValues = mkIndex tags := by rw [hst]
  rcases hp : bcp47parse tagStr with _ | req
  · simp [matchesForTag, matchesSpec, hp]
  · rcases hl : req.language with _ | lang
    · simp [matchesForTag, matchesSpec, hp, hl]
    · have hlk : lookupAL st'.languageTagsWithValues lang =
          optBucket none (tagsForPairs tags lang) := by
        rw [hidx]
        unfold mkIndex
        rw [lookup_foldIns hall [] lang]
        rfl
      rcases htf : tagsForPairs tags lang with _ | ⟨b, bs⟩
      · rw [htf] at hlk
        simp only [optBucket, List.isEmpty_nil, if_pos] at hlk
        simp [matchesForTag, matchesSpec, hp, hl, hlk, htf]
      · rw [htf] at hlk
        simp only [optBucket, List.isEmpty_cons] at hlk
        simp only [Bool.false_eq_true, if_false] at hlk
        simp [matchesForTag, matchesSpec, hp, hl, hlk, htf]

/-! ## Lemmas about the exception-aware negotiation -/

lemma matchesForTagE_ok {st : AcceptLanguage} {ts : String} {l : List String}
    (h : matchesForTagE st ts = .ok l) : matchesForTag st ts = l := by
  unfold matchesForTagE at h
  unfold matchesForTag
  rcases hp : bcp47parse ts with _ | req
  · simp only [hp, Except.ok.injEq] at h
    exact h
  · simp only [hp] at h ⊢
    rcases hl : req.language with _ | lang
    · simp only [hl, Except.ok.injEq] at h
      exact h
    · simp only [hl] at h ⊢
      rcases hlk : lookupAL st.languageTagsWithValues lang with _ | bucket
      · unfold objGet at h
        simp only [hlk] at h
        by_cases hm : lang ∈ protoProps
        · simp [hm] at h
        · simp only [if_neg hm, Except.ok.injEq] at h
          exact h
      · unfold objGet at h
        simp only [hlk, Except.ok.injEq] at h
        exact h

lemma matchesForTagE_error {st : AcceptLanguage} {ts : String} {e : JsTypeError}
    (h : matchesForTagE st ts = .error e) :
    ∃ req lang, e = .notIterable lang ∧ bcp47parse ts = some req ∧
      req.language = some lang ∧ lang ∈ protoProps ∧
      lookupAL st.languageTagsWithValues lang = none := by
  unfold matchesForTagE at h
  rcases hp : bcp47parse ts with _ | req
  · simp [hp] at h
  · simp only [hp] at h
    rcases hl : req.language with _ | lang
    · simp [hl] at h
    · simp only [hl] at h
      rcases hlk : lookupAL st.languageTagsWithValues lang with _ | bucket
      · unfold objGet at h
        simp only [hlk] at h
        by_cases hm : lang ∈ protoProps
        · simp only [if_pos hm, Except.error.injEq] at h
          exact ⟨req, lang, h.symm, rfl, hl, hm, hlk⟩
        · simp [hm] at h
      · unfold objGet at h
        simp [hlk] at h

lemma tagSafe_matchesForTagE {st : AcceptLanguage} {ts : String}
    (h : tagSafe st ts = true) :
    matchesForTagE st ts = .ok (matchesForTag st ts) := by
  unfold tagSafe at h
  unfold matchesForTagE matchesForTag
  rcases hp : bcp47parse ts with _ | req
  · simp [hp]
  · simp only [hp] at h ⊢
    rcases hl : req.language with _ | lang
    · simp [hl]
    · simp only [hl] at h ⊢
      rcases hlk : lookupAL st.languageTagsWithValues lang with _ | bucket
      · unfold objGet at h ⊢
        simp only [hlk] at h ⊢
        by_cases hm : lang ∈ protoProps
        · simp [hm] at h
        · simp [hm]
      · unfold objGet at h ⊢
        simp [hlk]

lemma collectMatches_ok {st : AcceptLanguage} :
    ∀ {lts : List RequestedTag} {r : List String},
      collectMatches st lts = .ok r →
      r = lts.flatMap fun lt => matchesForTag st lt.tag := by
  intro lts
  induction lts with
  | nil =>
    intro r h
    simp only [collectMatches, Except.ok.injEq] at h
    simp [← h]
  | cons lt lts ih =>
    intro r h
    unfold collectMatches at h
    rcases hm : matchesForTagE st lt.tag with e | ms
    · simp only [hm] at h
      exact Except.noConfusion h
    · simp only [hm] at h
      rcases hc : collectMatches st lts with e' | rest
      · simp only [hc] at h
        exact Except.noConfusion h
      · simp only [hc, Except.ok.injEq] at h
        subst h
        rw [List.flatMap_cons, matchesForTagE_ok hm, ih hc]

lemma collectMatches_error {st : AcceptLanguage} :
    ∀ {lts : List RequestedTag} {e : JsTypeError},
      collectMatches st lts = .error e →
      ∃ lt ∈ lts, matchesForTagE st lt.tag = .error e := by
  intro lts
  induction lts with
  | nil =>
    intro e h
    simp [collectMatches] at h
  | cons lt lts ih =>
    intro e h
    unfold collectMatches at h
    rcases hm : matchesForTagE st lt.tag with e' | ms
    · simp only [hm, Except.error.injEq] at h
      exact ⟨lt, by simp, by rw [hm, h]⟩
    · simp only [hm] at h
      rcases hc : collectMatches st lts with e' | rest
      · simp only [hc, Except.error.injEq] at h
        obtain ⟨lt', hlt', he'⟩ := ih hc
        exact ⟨lt', by simp [hlt'], by rw [he', h]⟩
      · simp only [hc] at h
        exact Except.noConfusion h

lemma collectMatches_of_safe {st : AcceptLanguage} :
    ∀ {lts : List RequestedTag}, (∀ lt ∈ lts, tagSafe st lt.tag = true) →
      collectMatches st lts = .ok (lts.flatMap fun lt => matchesForTag st lt.tag) := by
  intro lts
  induction lts with
  | nil =>
    intro _
    simp [collectMatches]
  | cons lt lts ih =>
    intro hsafe
    have h1 := tagSafe_matchesForTagE (hsafe lt (by simp))
    have h2 := ih fun lt' hlt' => hsafe lt' (by simp [hlt'])
    unfold collectMatches
    simp only [h1, h2, List.flatMap_cons]

/-! ## Claim C1 -/

lemma languages_default {tags : List String} {self st' : AcceptLanguage} {t0 : String}
    (hs : self.languages tags = (none, st')) (h0 : tags.head? = some t0) :
    st'.defaultLanguageTag = some t0 := by
  obtain ⟨hst, hne, _⟩ := languages_ok hs
  rw [hst]
  cases tags with
  | nil => simp at h0
  | cons a l =>
    simp only [List.head?_cons, Option.some.injEq] at h0
    simp [h0]

/-- C1: after a successful `setSupportedLanguages(tags)` call,
`resolveAll` of a null/undefined (modelled as `none`) or empty priority
list is exactly `[defaultTag]` with `defaultTag = tags[0]`, the head of
the most recently supplied list, and hence `resolve(null) = tags[0]`. -/
theorem c1_default_resolution (tags : List String) (st st' : AcceptLanguage)
    (t0 : String) (hs : st.languages tags = (none, st'))
    (h0 : tags.head? = some t0) :
    st'.parse none = [some t0] ∧ st'.parse (some "") = [some t0] ∧
      st'.get none = some t0 := by
  have hd := languages_default hs h0
  refine ⟨?_, ?_, ?_⟩
  · simp [AcceptLanguage.parse, hd]
  · simp [AcceptLanguage.parse, hd]
  · simp [AcceptLanguage.get, AcceptLanguage.parse, hd]

/-- Witness for C1 at the registry `['en']`. -/
theorem c1_witness :
    AcceptLanguage.parse (mkAL ["en"]) none = [some "en"] ∧
      AcceptLanguage.parse (mkAL ["en"]) (some "") = [some "en"] ∧
      AcceptLanguage.get (mkAL ["en"]) none = some "en" :=
  c1_default_resolution ["en"] emptyAL (mkAL ["en"]) "en" (by decide) rfl

/-! ## Claim C2 -/

/-- The supported tag specifies a subtag category that the requested tag
does not specify (the five categories tested by the source, in its
order). -/
def tooSpecific (d r : LangTag) : Prop :=
  (d.privateuse ≠ [] ∧ r.privateuse = []) ∨
    (d.extension ≠ [] ∧ r.extension = []) ∨
    (d.variant ≠ [] ∧ r.variant = []) ∨
    (d.region ≠ none ∧ r.region = none) ∨
    (d.script ≠ none ∧ r.script = none)

lemma tooSpecific_incompatible (d r : LangTag)
    (hwf : ∀ e ∈ d.extension, e.extension ≠ []) (hts : tooSpecific d r) :
    isCompatible d r = false := by
  unfold isCompatible
  rcases hts with ⟨hd, hr⟩ | ⟨hd, hr⟩ | ⟨hd, hr⟩ | ⟨hd, hr⟩ | ⟨hd, hr⟩
  · rcases hpu : d.privateuse with _ | ⟨a, l⟩
    · exact absurd hpu hd
    · rw [hr]
      simp [List.isPrefixOf]
  · rcases hext : d.extension with _ | ⟨e, es⟩
    · exact absurd hext hd
    · have he : e.extension ≠ [] := hwf e (by rw [hext]; simp)
      have hie : e.extension.isEmpty = false := by
        cases hee : e.extension with
        | nil => exact absurd hee he
        | cons x xs => simp
      rw [hr]
      simp [extRecordsCompatible, hie]
  · rcases hv : d.variant with _ | ⟨a, l⟩
    · exact absurd hv hd
    · rw [hr]
      simp [List.isPrefixOf]
  · obtain ⟨dv, hdv⟩ := Option.ne_none_iff_exists'.mp hd
    rw [hr, hdv]
    simp [optCompatible]
  · obtain ⟨dv, hdv⟩ := Option.ne_none_iff_exists'.mp hd
    rw [hr, hdv]
    simp [optCompatible]

/-- C2: a supported tag that specifies a subtag category the requested
tag lacks is rejected (never survives the candidate filter); concretely,
registry `['zh-Hant']` with request `"zh"` falls back to the default,
while registry `['en']` (no subtags beyond the language) matches request
`"en-US"`. -/
theorem c2_too_specific_rejected :
    (∀ d r : LangTag, (∀ e ∈ d.extension, e.extension ≠ []) → tooSpecific d r →
        isCompatible d r = false) ∧
      (∀ (bucket : List LanguageTagWithValue) (r : LangTag)
          (dv : LanguageTagWithValue),
          (∀ e ∈ dv.extension, e.extension ≠ []) → tooSpecific dv.toLangTag r →
          dv ∉ bucket.filter fun d => isCompatible d.toLangTag r) ∧
      AcceptLanguage.parse (mkAL ["zh-Hant"]) (some "zh") = [some "zh-Hant"] ∧
      AcceptLanguage.parse (mkAL ["en"]) (some "en-US") = [some "en"] := by
  refine ⟨tooSpecific_incompatible, ?_, by decide, by decide⟩
  intro bucket r dv hwf hts hmem
  have hc := (List.mem_filter.mp hmem).2
  rw [tooSpecific_incompatible dv.toLangTag r hwf hts] at hc
  exact absurd hc (by simp)

/-- Witness for C2: the `zh-Hant` candidate against a bare `zh` request. -/
theorem c2_witness :
    isCompatible
        { language := some "zh", extlang := [], script := some "Hant",
          region := none, variant := [], extension := [], privateuse := [] }
        { language := some "zh", extlang := [], script := none, region := none,
          variant := [], extension := [], privateuse := [] } = false :=
  c2_too_specific_rejected.1 _ _ (by simp)
    (Or.inr (Or.inr (Or.inr (Or.inr ⟨by simp, rfl⟩))))

/-! ## Claim C3 -/

lemma splitCharList_structure (sep : Char) (cs : List Char) :
    splitCharList sep cs =
      cs.takeWhile (fun c => c != sep) ::
        (match cs.dropWhile (fun c => c != sep) with
         | [] => []
         | _ :: rest => splitCharList sep rest) := by
  induction cs with
  | nil => rfl
  | cons c cs ih =>
    by_cases hc : c = sep
    · subst hc
      have h1 : splitCharList c (c :: cs) = [] :: splitCharList c cs := by
        simp [splitCharList]
      have h2 : (c :: cs).takeWhile (fun x => x != c) = [] := by
        simp [List.takeWhile_cons]
      have h3 : (c :: cs).dropWhile (fun x => x != c) = c :: cs := by
        simp [List.dropWhile_cons]
      rw [h1, h2, h3]
    · have hb : (c != sep) = true := by simp [hc]
      have h1 : splitCharList sep (c :: cs) =
          match splitCharList sep cs with
          | [] => [[c]]
          | h :: t => (c :: h) :: t := by
        simp only [splitCharList, if_neg hc]
      have h2 : (c :: cs).takeWhile (fun x => x != sep) =
          c :: cs.takeWhile (fun x => x != sep) := by
        simp [List.takeWhile_cons, hb]
      have h3 : (c :: cs).dropWhile (fun x => x != sep) =
          cs.dropWhile (fun x => x != sep) := by
        simp [List.dropWhile_cons, hb]
      rw [h1, ih, h2, h3]

lemma splitCharList_of_dropWhile_nil {sep : Char} {cs : List Char}
    (h : cs.dropWhile (fun c => c != sep) = []) :
    splitCharList sep cs = [cs.takeWhile (fun c => c != sep)] := by
  rw [splitCharList_structure, h]

lemma splitCharList_of_dropWhile_cons {sep : Char} {cs : List Char} {c0 : Char}
    {rest : List Char} (h : cs.dropWhile (fun c => c != sep) = c0 :: rest) :
    splitCharList sep cs =
      cs.takeWhile (fun c => c != sep) :: splitCharList sep rest := by
  rw [splitCharList_structure, h]

/-- The quality assignment as the counterexample forces it to be
amended: the value parsed is the text between the first `=` of the
component's first `;`-parameter (whatever the parameter's name) and the
next `=` or the end; `NaN` when that parameter contains no `=`; `1.0`
when there is no nonempty first parameter. -/
def amendedQuality (component : String) : JsFloat :=
  match (splitChar ';' (removeFirstWsRun component)).tail.head? with
  | none => .val 1
  | some p =>
    if p = "" then .val 1
    else
      match p.data.dropWhile (fun c => c != '=') with
      | [] => .nan
      | _ :: rest => parseFloat (String.mk (rest.takeWhile (fun c => c != '=')))

lemma split_eq_second (c1 : String) :
    (match splitChar '=' c1 with
     | _ :: v :: _ => parseFloat v
     | _ => JsFloat.nan) =
      (match c1.data.dropWhile (fun c => c != '=') with
       | [] => JsFloat.nan
       | _ :: rest => parseFloat (String.mk (rest.takeWhile (fun c => c != '=')))) := by
  unfold splitChar
  rcases hdw : c1.data.dropWhile (fun c => c != '=') with _ | ⟨c0, rest⟩
  · rw [splitCharList_of_dropWhile_nil hdw]
    rfl
  · rw [splitCharList_of_dropWhile_cons hdw, splitCharList_structure '=' rest]
    rfl

/-- C4 counterexample: the component `"en;foo=0.5"` carries no `q=`
parameter (every parameter after the tag fails to start with `q=`), so
the claim's rule assigns quality `1.0`; the code instead parses the
value of the first parameter regardless of its name and assigns `0.5`. -/
theorem c4_counterexample :
    ((splitChar ';' (removeFirstWsRun "en;foo=0.5")).tail.all
        fun p => !(("q=".data).isPrefixOf p.data)) = true ∧
      (parseWeightedRange "en;foo=0.5").quality = JsFloat.val (1 / 2) ∧
      JsFloat.val (1 / 2 : ℚ) ≠ JsFloat.val 1 :=
  ⟨by decide, by decide, by decide⟩

/-- C4 (amended): the component's quality is the float value of the text
after the first `=` of its first `;`-parameter when a nonempty first
parameter exists (`NaN` when that parameter has no `=`), and `1.0`
otherwise; components with no tag text are discarded without error. -/
theorem c4_quality_from_first_parameter :
    (∀ component : String,
        (parseWeightedRange component).quality = amendedQuality component) ∧
      (∀ (s : String) (x : RequestedTag),
          x ∈ rawTags s ↔
            x ∈ (splitChar ',' s).map parseWeightedRange ∧ x.tag ≠ "") := by
  constructor
  · intro component
    unfold parseWeightedRange amendedQuality
    rcases hsp : splitChar ';' (removeFirstWsRun component) with _ | ⟨tagPart, ps⟩
    · rfl
    · rcases ps with _ | ⟨c1, ps'⟩
      · rfl
      · show (if c1 = "" then JsFloat.val 1
              else match splitChar '=' c1 with
                   | _ :: v :: _ => parseFloat v
                   | _ => JsFloat.nan) =
            (if c1 = "" then JsFloat.val 1
              else match c1.data.dropWhile (fun c => c != '=') with
                   | [] => JsFloat.nan
                   | _ :: rest =>
                     parseFloat (String.mk (rest.takeWhile (fun c => c != '='))))
        by_cases hc1 : c1 = ""
        · rw [if_pos hc1, if_pos hc1]
        · rw [if_neg hc1, if_neg hc1]
          exact split_eq_second c1
  · intro s x
    simp [rawTags, List.mem_filter, bne_iff_ne]

/-- Witness for C4's amended statement at a genuine `q=` parameter. -/
theorem c4_witness :
    (parseWeightedRange "en;q=0.5").quality = amendedQuality "en;q=0.5" :=
  c4_quality_from_first_parameter.1 "en;q=0.5"

/-! ## Claim C5 -/

/-- Refuting counterexample to C5's universal no-exception guarantee:
`"toString"` is a well-formed BCP47 langtag, so it is not skipped; its
primary language `"toString"` is absent from the registry built from
`['fr']`, yet the index read `this.languageTagsWithValues["toString"]`
finds the truthy inherited `Object.prototype.toString` function, the
`!bucket` guard passes, and `for...of` over the function raises a
TypeError that escapes both `resolveAll` and `resolve`. -/
theorem c5_counterexample :
    parseE (mkAL ["fr"]) (some "toString") =
        .error (.notIterable "toString") ∧
      getE (mkAL ["fr"]) (some "toString") =
        .error (.notIterable "toString") :=
  ⟨by decide, by decide⟩

/-- C5 as amended by the counterexample: requested components that fail
BCP47 parsing are silently skipped with no exception; whenever
`parse`/`get` do return they return the non-empty sequence the pure
translation describes; a null, undefined, empty, `",,,"` or `"   "`
priority list yields exactly `[defaultTag]` (no exception); the only
exception that can escape is the TypeError raised when a requested
component's primary language is an `Object.prototype` property name with
no bucket of its own in the index; and a priority list none of whose
components hits that collision is fully exception-free. -/
theorem c5_failure_semantics :
    (∀ (st : AcceptLanguage) (ts : String), bcp47parse ts = none →
        matchesForTagE st ts = .ok []) ∧
      (∀ (st : AcceptLanguage) (pl : Option String) (l : List (Option String)),
          parseE st pl = .ok l → st.parse pl = l ∧ l ≠ []) ∧
      (∀ st : AcceptLanguage,
          parseE st none = .ok [st.defaultLanguageTag] ∧
          parseE st (some "") = .ok [st.defaultLanguageTag] ∧
          parseE st (some ",,,") = .ok [st.defaultLanguageTag] ∧
          parseE st (some "   ") = .ok [st.defaultLanguageTag]) ∧
      (∀ (st : AcceptLanguage) (pl : Option String) (e : JsTypeError),
          parseE st pl = .error e →
          ∃ s lt req lang, pl = some s ∧ s ≠ "" ∧
            lt ∈ parseAndSortLanguageTags s ∧ e = .notIterable lang ∧
            bcp47parse lt.tag = some req ∧ req.language = some lang ∧
            lang ∈ protoProps ∧
            lookupAL st.languageTagsWithValues lang = none) ∧
      (∀ (st : AcceptLanguage) (s : String),
          ((parseAndSortLanguageTags s).all fun lt => tagSafe st lt.tag) →
          parseE st (some s) = .ok (st.parse (some s))) := by
  refine ⟨?_, ?_, ?_, ?_, ?_⟩
  · intro st ts h
    simp [matchesForTagE, h]
  · intro st pl l hp
    cases pl with
    | none =>
      have h0 : parseE st none = .ok [st.defaultLanguageTag] := rfl
      rw [h0] at hp
      simp only [Except.ok.injEq] at hp
      subst hp
      exact ⟨rfl, by simp⟩
    | some s =>
      by_cases hse : s = ""
      · subst hse
        have h0 : parseE st (some "") = .ok [st.defaultLanguageTag] := rfl
        rw [h0] at hp
        simp only [Except.ok.injEq] at hp
        subst hp
        exact ⟨rfl, by simp⟩
      · simp only [parseE, if_neg hse] at hp
        rcases hc : collectMatches st (parseAndSortLanguageTags s) with e | result
        · simp [hc] at hp
        · simp only [hc, Except.ok.injEq] at hp
          subst hp
          constructor
          · simp only [AcceptLanguage.parse, if_neg hse]
            rw [← collectMatches_ok hc]
          · by_cases hr : result.length > 0
            · rw [if_pos hr]
              intro hnil
              have hlen := congrArg List.length hnil
              rw [List.length_map] at hlen
              simp only [List.length_nil] at hlen
              omega
            · rw [if_neg hr]
              simp
  · intro st
    exact ⟨rfl, rfl, rfl, rfl⟩
  · intro st pl e hp
    cases pl with
    | none => simp [parseE] at hp
    | some s =>
      by_cases hse : s = ""
      · subst hse
        have h0 : parseE st (some "") = .ok [st.defaultLanguageTag] := rfl
        rw [h0] at hp
        exact Except.noConfusion hp
      · simp only [parseE, if_neg hse] at hp
        rcases hc : collectMatches st (parseAndSortLanguageTags s) with e' | result
        · simp only [hc, Except.error.injEq] at hp
          subst hp
          obtain ⟨lt, hlt, herr⟩ := collectMatches_error hc
          obtain ⟨req, lang, he, hreq, hlang, hmem, hlk⟩ := matchesForTagE_error herr
          exact ⟨s, lt, req, lang, rfl, hse, hlt, he, hreq, hlang, hmem, hlk⟩
        · simp [hc] at hp
  · intro st s hsafe
    by_cases hse : s = ""
    · subst hse
      rfl
    · have hall : ∀ lt ∈ parseAndSortLanguageTags s, tagSafe st lt.tag = true :=
        fun lt hlt => List.all_eq_true.mp hsafe lt hlt
      simp only [parseE, AcceptLanguage.parse, if_neg hse,
        collectMatches_of_safe hall]

/-- Witness for C5 at a skipped malformed tag and a returning call. -/
theorem c5_witness :
    matchesForTagE emptyAL "!!" = .ok [] ∧
      ((mkAL ["fr"]).parse (some "fr") = [some "fr"] ∧
        ([some "fr"] : List (Option String)) ≠ []) ∧
      parseE (mkAL ["fr"]) (some "fr,de") = .ok ((mkAL ["fr"]).parse (some "fr,de")) :=
  ⟨c5_failure_semantics.1 emptyAL "!!" (by decide),
    c5_failure_semantics.2.1 (mkAL ["fr"]) (some "fr") [some "fr"] (by decide),
    c5_failure_semantics.2.2.2.2 (mkAL ["fr"]) "fr,de" (by decide)⟩

/-! ## Claim C6 -/

lemma goodTag_none_of_parse_none {t : String} (h : bcp47parse t = none) :
    goodTag t = none := by
  simp [goodTag, h]

lemma goodTag_none_of_no_language {t : String} {lt : LangTag}
    (h : bcp47parse t = some lt) (hl : lt.language = none) : goodTag t = none := by
  simp [goodTag, h, hl]

lemma errOf_of_parse_none {t : String} (h : bcp47parse t = none) :
    errOf t = some (.invalidTagError t) := by
  simp [errOf, h]

lemma errOf_of_no_language {t : String} {lt : LangTag}
    (h : bcp47parse t = some lt) (hl : lt.language = none) :
    errOf t = some (.unsupportedTagError t) := by
  simp [errOf, h, hl]

lemma goodTag_none_of_proto {t : String} {lt : LangTag} {lang : String}
    (h : bcp47parse t = some lt) (hl : lt.language = some lang)
    (hm : lang ∈ protoProps) : goodTag t = none := by
  simp [goodTag, h, hl, hm]

lemma errOf_of_proto {t : String} {lt : LangTag} {lang : String}
    (h : bcp47parse t = some lt) (hl : lt.language = some lang)
    (hm : lang ∈ protoProps) :
    errOf t = some (.inheritedBucketError t) := by
  simp [errOf, h, hl, hm]

lemma languagesAux_first_err {pre : List String} {t : String} {post : List String}
    (st : AcceptLanguage) (hpf : protoFree st.languageTagsWithValues)
    (hpre : ∀ p ∈ pre, goodTag p ≠ none) (ht : goodTag t = none) :
    (languagesAux (pre ++ t :: post) st).1 = errOf t := by
  induction pre generalizing st with
  | nil =>
    obtain ⟨e, he, hadd⟩ := addTag_of_bad ht st hpf
    simp only [List.nil_append, languagesAux, hadd, he]
  | cons p pre ih =>
    rcases hg : goodTag p with _ | lv
    · exact absurd hg (hpre p (by simp))
    · have hadd := addTag_of_good hg st
      simp only [List.cons_append, languagesAux, hadd]
      exact ih _ (protoFree_insertAppend hpf (goodTag_key_not_proto hg))
        fun p' hp' => hpre p' (by simp [hp'])

lemma languages_first_err {tags pre : List String} {t : String} {post : List String}
    {self : AcceptLanguage} (hts : tags = pre ++ t :: post)
    (hpre : ∀ p ∈ pre, goodTag p ≠ none) (ht : goodTag t = none) :
    (self.languages tags).1 = errOf t := by
  subst hts
  have hlen : ¬(pre ++ t :: post).length < 1 := by simp
  unfold AcceptLanguage.languages
  rw [if_neg hlen]
  rcases haux :
    languagesAux (pre ++ t :: post) { self with languageTagsWithValues := [] } with
    ⟨err, st2⟩
  have hfst := @languagesAux_first_err pre t post
    { self with languageTagsWithValues := [] } protoFree_nil hpre ht
  rw [haux] at hfst
  cases err with
  | none => exact hfst
  | some e => exact hfst

lemma goodTag_isSome_iff {t : String} :
    goodTag t ≠ none ↔
      ∃ lt lang, bcp47parse t = some lt ∧ lt.language = some lang ∧
        lang ∉ protoProps := by
  constructor
  · intro h
    refine errOf_none_iff.mp ?_
    by_contra hne
    exact h (goodTag_none_iff.mpr hne)
  · intro h hnone
    exact goodTag_none_iff.mp hnone (errOf_none_iff.mpr h)

/-- Refuting counterexample to C6's "returns normally otherwise":
`"valueOf"` is a well-formed BCP47 langtag whose primary language subtag
is `"valueOf"`, so by the claim `languages(['valueOf'])` should return
normally; but the guard `!this.languageTagsWithValues['valueOf']` reads
the truthy inherited `Object.prototype.valueOf` function, so the code
takes the `else` branch and calls `.push` on that function, raising a
TypeError. -/
theorem c6_counterexample :
    bcp47parse "valueOf" ≠ none ∧
      (bcp47parse "valueOf").map (fun lt => lt.language) =
        some (some "valueOf") ∧
      (emptyAL.languages ["valueOf"]).1 =
        some (.inheritedBucketError "valueOf") :=
  ⟨by decide, by decide, by decide⟩

/-- C6 as amended by the counterexample: `setSupportedLanguages` raises
`ConfigurationError` exactly when the tag list is empty; an
`InvalidTagError` it raises names a supplied tag on which the BCP47
parser returns null; an `UnsupportedTagError` it raises names a supplied
tag that parses without a primary language subtag; the TypeError from
the inherited-bucket collision names a supplied tag whose primary
language is an `Object.prototype` property name; it returns normally
exactly when the list is non-empty and every tag parses with a primary
language that is not such a property name; any invalid, language-less or
prototype-colliding tag prevents a normal return; and when defective
tags coexist the first defective tag determines the error raised. -/
theorem c6_configuration_errors (tags : List String) (self : AcceptLanguage) :
    ((self.languages tags).1 = some .configurationError ↔ tags = []) ∧
      (∀ t, (self.languages tags).1 = some (.invalidTagError t) →
          t ∈ tags ∧ bcp47parse t = none) ∧
      (∀ t, (self.languages tags).1 = some (.unsupportedTagError t) →
          t ∈ tags ∧ ∃ lt, bcp47parse t = some lt ∧ lt.language = none) ∧
      (∀ t, (self.languages tags).1 = some (.inheritedBucketError t) →
          t ∈ tags ∧ ∃ lt lang, bcp47parse t = some lt ∧
            lt.language = some lang ∧ lang ∈ protoProps) ∧
      ((self.languages tags).1 = none ↔
          tags ≠ [] ∧ ∀ t ∈ tags, ∃ lt lang, bcp47parse t = some lt ∧
            lt.language = some lang ∧ lang ∉ protoProps) ∧
      ((∃ t ∈ tags, bcp47parse t = none) → (self.languages tags).1 ≠ none) ∧
      ((∃ t ∈ tags, ∃ lt, bcp47parse t = some lt ∧ lt.language = none) →
          (self.languages tags).1 ≠ none) ∧
      ((∃ t ∈ tags, ∃ lt lang, bcp47parse t = some lt ∧
            lt.language = some lang ∧ lang ∈ protoProps) →
          (self.languages tags).1 ≠ none) ∧
      (∀ (pre : List String) (t : String) (post : List String),
          tags = pre ++ t :: post →
          (∀ p ∈ pre, ∃ lt lang, bcp47parse p = some lt ∧
            lt.language = some lang ∧ lang ∉ protoProps) →
          bcp47parse t = none →
          (self.languages tags).1 = some (.invalidTagError t)) ∧
      (∀ (pre : List String) (t : String) (post : List String) (lt : LangTag),
          tags = pre ++ t :: post →
          (∀ p ∈ pre, ∃ lt' lang, bcp47parse p = some lt' ∧
            lt'.language = some lang ∧ lang ∉ protoProps) →
          bcp47parse t = some lt → lt.language = none →
          (self.languages tags).1 = some (.unsupportedTagError t)) ∧
      (∀ (pre : List String) (t : String) (post : List String) (lt : LangTag)
          (lang : String),
          tags = pre ++ t :: post →
          (∀ p ∈ pre, ∃ lt' lang', bcp47parse p = some lt' ∧
            lt'.language = some lang' ∧ lang' ∉ protoProps) →
          bcp47parse t = some lt → lt.language = some lang →
          lang ∈ protoProps →
          (self.languages tags).1 = some (.inheritedBucketError t)) := by
  have hnone := @languages_fst_none_iff tags self
  refine ⟨?_, ?_, ?_, ?_, ?_, ?_, ?_, ?_, ?_, ?_, ?_⟩
  · constructor
    · intro h
      rcases hl : self.languages tags with ⟨err, st2⟩
      rw [hl] at h
      have h' : err = some .configurationError := h
      rw [h'] at hl
      rcases languages_err hl with ⟨htags, _, _⟩ | ⟨_, t, _, _, _, herr, _⟩
      · exact htags
      · exact absurd herr errOf_ne_config
    · intro h
      subst h
      simp [AcceptLanguage.languages]
  · intro t h
    rcases hl : self.languages tags with ⟨err, st2⟩
    rw [hl] at h
    have h' : err = some (.invalidTagError t) := h
    rw [h'] at hl
    rcases languages_err hl with ⟨_, hcfg, _⟩ | ⟨pre, t', post, hts, _, herr, _⟩
    · simp at hcfg
    · obtain ⟨rfl, hbp⟩ := errOf_invalid herr
      refine ⟨?_, hbp⟩
      rw [hts]
      exact List.mem_append_right _ (List.mem_cons_self _ _)
  · intro t h
    rcases hl : self.languages tags with ⟨err, st2⟩
    rw [hl] at h
    have h' : err = some (.unsupportedTagError t) := h
    rw [h'] at hl
    rcases languages_err hl with ⟨_, hcfg, _⟩ | ⟨pre, t', post, hts, _, herr, _⟩
    · simp at hcfg
    · obtain ⟨rfl, hlt⟩ := errOf_unsupported herr
      refine ⟨?_, hlt⟩
      rw [hts]
      exact List.mem_append_right _ (List.mem_cons_self _ _)
  · intro t h
    rcases hl : self.languages tags with ⟨err, st2⟩
    rw [hl] at h
    have h' : err = some (.inheritedBucketError t) := h
    rw [h'] at hl
    rcases languages_err hl with ⟨_, hcfg, _⟩ | ⟨pre, t', post, hts, _, herr, _⟩
    · simp at hcfg
    · obtain ⟨rfl, hex⟩ := errOf_inherited herr
      refine ⟨?_, hex⟩
      rw [hts]
      exact List.mem_append_right _ (List.mem_cons_self _ _)
  · rw [hnone]
    constructor
    · rintro ⟨hne, hall⟩
      exact ⟨hne, fun t ht => goodTag_isSome_iff.mp (hall t ht)⟩
    · rintro ⟨hne, hall⟩
      exact ⟨hne, fun t ht => goodTag_isSome_iff.mpr (hall t ht)⟩
  · rintro ⟨t, ht, hp⟩ hn
    obtain ⟨-, hall⟩ := hnone.mp hn
    obtain ⟨lt, lang, hlt, -, -⟩ := goodTag_isSome_iff.mp (hall t ht)
    rw [hp] at hlt
    exact Option.noConfusion hlt
  · rintro ⟨t, ht, lt, hlt, hlang⟩ hn
    obtain ⟨-, hall⟩ := hnone.mp hn
    obtain ⟨lt', lang', hlt', hlang', -⟩ := goodTag_isSome_iff.mp (hall t ht)
    rw [hlt] at hlt'
    have hlteq : lt = lt' := by injection hlt'
    rw [← hlteq, hlang] at hlang'
    exact Option.noConfusion hlang'
  · rintro ⟨t, ht, lt, lang, hlt, hlang, hm⟩ hn
    obtain ⟨-, hall⟩ := hnone.mp hn
    obtain ⟨lt', lang', hlt', hlang', hnm⟩ := goodTag_isSome_iff.mp (hall t ht)
    rw [hlt] at hlt'
    have hlteq : lt = lt' := by injection hlt'
    rw [← hlteq, hlang] at hlang'
    have hle : lang = lang' := by injection hlang'
    rw [← hle] at hnm
    exact hnm hm
  · intro pre t post hts hpre hp
    rw [languages_first_err hts
        (fun p hp' => goodTag_isSome_iff.mpr (hpre p hp'))
        (goodTag_none_of_parse_none hp)]
    rw [errOf_of_parse_none hp]
  · intro pre t post lt hts hpre hp hl
    rw [languages_first_err hts
        (fun p hp' => goodTag_isSome_iff.mpr (hpre p hp'))
        (goodTag_none_of_no_language hp hl)]
    rw [errOf_of_no_language hp hl]
  · intro pre t post lt lang hts hpre hp hl hm
    rw [languages_first_err hts
        (fun p hp' => goodTag_isSome_iff.mpr (hpre p hp'))
        (goodTag_none_of_proto hp hl hm)]
    rw [errOf_of_proto hp hl hm]

/-- Witness for C6: the empty list and an invalid tag. -/
theorem c6_witness :
    (emptyAL.languages []).1 = some .configurationError ∧
      "!!" ∈ ["!!"] ∧ bcp47parse "!!" = none :=
  ⟨(c6_configuration_errors [] emptyAL).1.mpr rfl,
    (c6_configuration_errors ["!!"] emptyAL).2.1 "!!" (by decide)⟩

/-! ## Claim C7 -/

/-- C7 counterexample: against the claim, a `setSupportedLanguages` call
that raises an error does not leave the index as it was: starting from a
registry built with `['fr']`, the failing call
`setSupportedLanguages(['en', '!!'])` raises, yet the index afterwards
differs from the prior one (it was cleared and refilled with `en`). -/
theorem c7_counterexample :
    ((mkAL ["fr"]).languages ["en", "!!"]).1 ≠ none ∧
      ((mkAL ["fr"]).languages ["en", "!!"]).2.languageTagsWithValues ≠
        (mkAL ["fr"]).languageTagsWithValues :=
  ⟨by decide, by decide⟩

/-- C7 (amended): a call that returns normally has fully replaced the
registry — the final index is a function of the supplied tags alone —
and set the default to `tags[0]`; a call that raises leaves the default
untouched, leaves the whole state untouched when the list was empty, but
on a bad tag leaves the index cleared and repopulated with the tags
preceding the failing one (a prefix of the supplied list). -/
theorem c7_replace_and_partial_state :
    (∀ (tags : List String) (st st' : AcceptLanguage),
        st.languages tags = (none, st') →
        st'.languageTagsWithValues = mkIndex tags ∧
          st'.defaultLanguageTag = tags[0]?) ∧
      (∀ (tags : List String) (st : AcceptLanguage) (e : LangError),
          (st.languages tags).1 = some e →
          (st.languages tags).2.defaultLanguageTag = st.defaultLanguageTag ∧
            (tags = [] → (st.languages tags).2 = st) ∧
            (tags ≠ [] → ∃ pre, List.IsPrefix pre tags ∧
              (st.languages tags).2.languageTagsWithValues = mkIndex pre)) := by
  constructor
  · intro tags st st' hs
    obtain ⟨hst, -, -⟩ := languages_ok hs
    rw [hst]
    exact ⟨rfl, rfl⟩
  · intro tags st e h
    rcases hl : st.languages tags with ⟨err, st2⟩
    rw [hl] at h
    have h' : err = some e := h
    rw [h'] at hl
    rcases languages_err hl with ⟨htags, _, hst2⟩ | ⟨pre, t, post, hts, _, _, hst2⟩
    · exact ⟨by rw [hst2], fun _ => hst2, fun hne => absurd htags hne⟩
    · refine ⟨by rw [hst2], ?_, ?_⟩
      · intro htags
        rw [htags] at hts
        exact absurd hts.symm (by simp)
      · intro _
        exact ⟨pre, ⟨t :: post, hts.symm⟩, by rw [hst2]⟩

/-- Witness for C7's amended statement: a successful rebuild and the
empty-list failure. -/
theorem c7_witness :
    ((mkAL ["en", "fr"]).languageTagsWithValues = mkIndex ["en", "fr"] ∧
        (mkAL ["en", "fr"]).defaultLanguageTag = ["en", "fr"][0]?) ∧
      (emptyAL.languages []).2 = emptyAL :=
  ⟨c7_replace_and_partial_state.1 ["en", "fr"] emptyAL (mkAL ["en", "fr"])
      (by decide),
    (c7_replace_and_partial_state.2 [] emptyAL .configurationError
        (by decide)).2.1 rfl⟩

/-! ## Claim C8 -/

/-- `parse` as a state transformer: the source method body only reads
`this`, so the call returns its result and leaves the state exactly as it
was. -/
def parseS (self : AcceptLanguage) (languagePriorityList : Option String) :
    List (Option String) × AcceptLanguage :=
  (self.parse languagePriorityList, self)

/-- `get` as a state transformer (reads only, like `parse`). -/
def getS (self : AcceptLanguage) (languagePriorityList : Option String) :
    Option String × AcceptLanguage :=
  (self.get languagePriorityList, self)

/-- C8: `resolve`/`resolveAll` mutate neither the index nor the default,
and a repeated call with the same priority list on the unchanged state
returns an identical sequence. -/
theorem c8_negotiation_pure (st : AcceptLanguage) (pl : Option String) :
    (parseS st pl).2.languageTagsWithValues = st.languageTagsWithValues ∧
      (parseS st pl).2.defaultLanguageTag = st.defaultLanguageTag ∧
      (getS st pl).2 = st ∧
      (parseS st pl).1 = (parseS (parseS st pl).2 pl).1 ∧
      (getS st pl).1 = (getS (getS st pl).2 pl).1 :=
  ⟨rfl, rfl, rfl, rfl, rfl⟩

/-! ## Claim C9 -/

/-- C9 (code bug): the factory-made instance's `create` does return a
fresh unconfigured instance, but that instance's own `create` is the
class method, which returns `null as any` instead of the fresh instance
its declared return type `this` promises. -/
theorem c9_create_returns_null :
    moduleCreate.createResult = some newAcceptLanguage ∧
      newAcceptLanguage.state.languageTagsWithValues = [] ∧
      newAcceptLanguage.state.defaultLanguageTag = none ∧
      moduleCreate.createResult.map ALInstance.createResult = some none :=
  ⟨rfl, rfl, rfl, rfl⟩

/-! ## Claim C10 -/

/-- C10: the result sequence is not deduplicated: with registry `['en']`
and request `"en-US,en"`, both requested components match the single
supported tag, whose original value therefore appears twice. -/
theorem c10_no_dedup :
    AcceptLanguage.parse (mkAL ["en"]) (some "en-US,en") =
      [some "en", some "en"] := by decide

end AcceptLanguageSpec
